import Mathlib

/-!
# Verification of the Wikipedia graph explorer core

Shallow embedding of `wiki.py`: the adjacency store built from a
tab-separated edge list, the JSON cache round trip, the BFS shortest-path
search, the shared-link recommendation scan, and the degree queries.

A Python `dict` is embedded as an association list in insertion order
(`AdjList`); a Python `set` of strings is embedded as a `Finset String`.
-/

namespace Wiki

/-- The adjacency representation: page title to ordered out-link sequence,
in insertion order, mirroring `self.adj_list` (a Python dict). -/
abbrev AdjList := List (String × List String)

/-- First-match association lookup, the dict indexing `self.adj_list[t]`
(Python dicts have unique keys, so first match is the match). -/
def lookupList : AdjList → String → Option (List String)
  | [], _ => none
  | (k, v) :: rest, t => if k = t then some v else lookupList rest t

/-- The key set of the mapping; `t ∈ keys g` embeds Python `t in self.adj_list`. -/
def keys (g : AdjList) : List String := g.map Prod.fst

/-- `get_connections` (wiki.py line 107): `self.adj_list.get(page_title, [])`. -/
def get_connections (g : AdjList) (t : String) : List String :=
  (lookupList g t).getD []

/-- `get_out_degree` (wiki.py line 186): length of the connection list. -/
def get_out_degree (g : AdjList) (t : String) : Nat :=
  (get_connections g t).length

/-- `get_in_degree` (wiki.py lines 202-206): counts the entries of the mapping
whose out-link list contains the title (each entry counted once). -/
def get_in_degree (g : AdjList) (t : String) : Nat :=
  g.countP (fun kv => decide (t ∈ kv.2))

section Ingestion

/-- The whitespace characters removed by Python `str.strip()`. -/
def isSpace (c : Char) : Bool :=
  c = ' ' || c = '\t' || c = '\n' || c = '\r' || c = '\x0b' || c = '\x0c'

/-- Python `str.strip()`: remove whitespace from both ends. -/
def pyStrip (cs : List Char) : List Char :=
  ((cs.dropWhile isSpace).reverse.dropWhile isSpace).reverse

/-- Python `str.split(sep)` for a one-character separator: cut at every
occurrence, keeping empty pieces (`"".split(t) == [""]`). -/
def splitChars (sep : Char) : List Char → List (List Char)
  | [] => [[]]
  | c :: cs =>
      match splitChars sep cs with
      | [] => [[]]
      | cur :: rest => if c = sep then [] :: cur :: rest else (c :: cur) :: rest

/-- `line.strip().split('\t')` (wiki.py line 40). -/
def fields (line : String) : List String :=
  (splitChars '\t' (pyStrip line.data)).map String.mk

/-- One line of `build_graph_from_file` (wiki.py lines 40-45): exactly four
fields give the record `(from_id, from_title, to_id, to_title)`, of which
only the two titles are kept; any other field count is skipped (`none`). -/
def parseLine (line : String) : Option (String × String) :=
  match fields line with
  | [_, fromTitle, _, toTitle] => some (fromTitle, toTitle)
  | _ => none

/-- Append `tt` to the out-link list of the entry for `ft`
(`self.adj_list[from_title].append(to_title)`, wiki.py line 54). -/
def appendLink : AdjList → String → String → AdjList
  | [], _, _ => []
  | (k, v) :: rest, ft, tt =>
      if k = ft then (k, v ++ [tt]) :: rest else (k, v) :: appendLink rest ft tt

/-- `if title not in self.adj_list: self.adj_list[title] = []`
(wiki.py lines 48-51): a fresh key is appended at the end, matching dict
insertion order. -/
def ensureKey (g : AdjList) (k : String) : AdjList :=
  if k ∈ keys g then g else g ++ [(k, [])]

/-- wiki.py lines 47-54: give both endpoint titles an entry, then add the
directed edge by appending `tt` to `ft`'s list. -/
def addEdge (g : AdjList) (ft tt : String) : AdjList :=
  appendLink (ensureKey (ensureKey g ft) tt) ft tt

/-- Process one data line: malformed lines leave the mapping unchanged
(`continue`), well-formed records add one directed edge. -/
def processLine (g : AdjList) (line : String) : AdjList :=
  match parseLine line with
  | none => g
  | some (ft, tt) => addEdge g ft tt

/-- `build_graph_from_file` (wiki.py lines 37-54) on the sequence of input
lines: `next(file)` discards the first line unconditionally (on an empty
input it raises `StopIteration`, embedded as `none`), then every remaining
line is processed in order, starting from the current mapping `g`. -/
def build_graph_from_file (lines : List String) (g : AdjList) : Option AdjList :=
  match lines with
  | [] => none
  | _ :: rest => some (rest.foldl processLine g)

end Ingestion

section Cache

/-- The JSON values that the cache file can hold. -/
inductive Json where
  | str : String → Json
  | num : Int → Json
  | arr : List Json → Json
  | obj : List (String × Json) → Json

/-- `cache_data` (wiki.py lines 67-68): `json.dump(self.adj_list, f)` writes
the mapping as a JSON object whose keys are the page titles and whose values
are the out-link arrays, in mapping order. -/
def cache_data (g : AdjList) : Json :=
  Json.obj (g.map (fun kv => (kv.1, Json.arr (kv.2.map Json.str))))

/-- Decode a JSON array of strings back into an out-link list. -/
def decodeLinks : List Json → Option (List String)
  | [] => some []
  | Json.str s :: rest => (decodeLinks rest).map (fun l => s :: l)
  | _ => none

/-- Decode the entries of the cached JSON object. -/
def decodeEntries : List (String × Json) → Option AdjList
  | [] => some []
  | (k, Json.arr js) :: rest =>
      match decodeLinks js, decodeEntries rest with
      | some l, some g => some ((k, l) :: g)
      | _, _ => none
  | _ => none

/-- `load_cache` (wiki.py lines 86-90): `json.load` reads the cache back as a
mapping from title to out-link array, in document order. -/
def load_cache : Json → Option AdjList
  | Json.obj entries => decodeEntries entries
  | _ => none

end Cache

/-! ## Basic lemmas about the store -/

theorem lookupList_mem {g : AdjList} {t : String} {v : List String}
    (h : lookupList g t = some v) : (t, v) ∈ g := by
  induction g with
  | nil => simp [lookupList] at h
  | cons kv rest ih =>
    obtain ⟨k, w⟩ := kv
    by_cases hk : k = t
    · subst hk
      simp [lookupList] at h
      subst h
      exact List.mem_cons_self _ _
    · simp [lookupList, hk] at h
      exact List.mem_cons_of_mem _ (ih h)

theorem lookupList_eq_none_of_not_mem {g : AdjList} {t : String}
    (h : t ∉ keys g) : lookupList g t = none := by
  induction g with
  | nil => rfl
  | cons kv rest ih =>
    have h1 : kv.1 ≠ t := fun he => h (by simp [keys, he])
    have h2 : t ∉ keys rest := fun hm => h (by simp [keys] at hm ⊢; exact Or.inr hm)
    obtain ⟨k, w⟩ := kv
    simpa [lookupList, h1] using ih h2

theorem get_connections_of_not_mem {g : AdjList} {t : String}
    (h : t ∉ keys g) : get_connections g t = [] := by
  simp [get_connections, lookupList_eq_none_of_not_mem h]

theorem lookupList_isSome_of_mem {g : AdjList} {t : String}
    (h : t ∈ keys g) : (lookupList g t).isSome := by
  induction g with
  | nil => simp [keys] at h
  | cons kv rest ih =>
    by_cases hk : kv.1 = t
    · simp [lookupList, ← hk]
    · simp [keys, hk] at h
      rcases h with h | h
      · exact absurd h.symm hk
      · simpa [lookupList, hk] using ih (by simpa [keys] using h)

/-- On a mapping with unique keys (every Python dict), lookup of a present
entry's key returns that entry's value. -/
theorem lookupList_of_nodup {g : AdjList} {k : String} {v : List String}
    (hnd : (keys g).Nodup) (h : (k, v) ∈ g) : lookupList g k = some v := by
  induction g with
  | nil => simp at h
  | cons kv rest ih =>
    have hnd' : (keys rest).Nodup := (List.nodup_cons.mp (by simpa [keys] using hnd)).2
    have hhd : kv.1 ∉ keys rest := (List.nodup_cons.mp (by simpa [keys] using hnd)).1
    rcases List.mem_cons.mp h with h | h
    · subst h
      simp [lookupList]
    · have hk : kv.1 ≠ k := by
        intro he
        exact hhd (he ▸ (by simpa [keys] using List.mem_map_of_mem Prod.fst h))
      simp [lookupList, hk, ih hnd' h]

/-! ## Ingestion lemmas -/

theorem lookupList_append (g h : AdjList) (t : String) :
    lookupList (g ++ h) t =
      match lookupList g t with
      | some v => some v
      | none => lookupList h t := by
  induction g with
  | nil => simp [lookupList]
  | cons kv rest ih =>
    obtain ⟨k, w⟩ := kv
    by_cases hk : k = t
    · simp [lookupList, hk]
    · simp only [List.cons_append, lookupList, if_neg hk]
      exact ih

theorem lookupList_appendLink_self (g : AdjList) (ft tt : String) :
    lookupList (appendLink g ft tt) ft = (lookupList g ft).map (fun v => v ++ [tt]) := by
  induction g with
  | nil => simp [appendLink, lookupList]
  | cons kv rest ih =>
    obtain ⟨k, w⟩ := kv
    by_cases hk : k = ft
    · simp [appendLink, lookupList, hk]
    · simp [appendLink, lookupList, hk, ih]

theorem lookupList_appendLink_other (g : AdjList) (ft tt x : String) (hx : x ≠ ft) :
    lookupList (appendLink g ft tt) x = lookupList g x := by
  induction g with
  | nil => rfl
  | cons kv rest ih =>
    obtain ⟨k, w⟩ := kv
    by_cases hk : k = ft
    · subst hk
      have hkx : ¬k = x := fun h => hx h.symm
      simp only [appendLink, if_pos rfl, lookupList, if_neg hkx]
    · simp only [appendLink, if_neg hk, lookupList]
      by_cases hkx : k = x
      · simp [hkx]
      · simp [hkx, ih]

theorem keys_appendLink (g : AdjList) (ft tt : String) :
    keys (appendLink g ft tt) = keys g := by
  induction g with
  | nil => simp [appendLink]
  | cons kv rest ih =>
    obtain ⟨k, w⟩ := kv
    by_cases hk : k = ft
    · simp [appendLink, keys, hk]
    · simpa [appendLink, keys, hk] using ih

theorem keys_ensureKey (g : AdjList) (k x : String) :
    x ∈ keys (ensureKey g k) ↔ x ∈ keys g ∨ x = k := by
  unfold ensureKey
  by_cases h : k ∈ keys g
  · simp only [if_pos h]
    constructor
    · exact Or.inl
    · rintro (hx | rfl)
      · exact hx
      · exact h
  · rw [if_neg h]
    simp [keys]

theorem get_connections_ensureKey (g : AdjList) (k x : String) :
    get_connections (ensureKey g k) x = get_connections g x := by
  unfold ensureKey
  by_cases h : k ∈ keys g
  · simp [if_pos h]
  · simp only [if_neg h, get_connections, lookupList_append]
    cases hl : lookupList g x with
    | some v => rfl
    | none => by_cases hkx : k = x <;> simp [lookupList, hkx]

theorem mem_ensureKey {g : AdjList} {k : String} {kv : String × List String}
    (h : kv ∈ ensureKey g k) : kv ∈ g ∨ kv = (k, []) := by
  unfold ensureKey at h
  split at h
  · exact Or.inl h
  · rcases List.mem_append.mp h with h | h
    · exact Or.inl h
    · simp at h
      exact Or.inr h

theorem appendLink_mem {g : AdjList} {ft tt : String} {kv : String × List String}
    (h : kv ∈ appendLink g ft tt) :
    kv ∈ g ∨ ∃ v, kv = (ft, v ++ [tt]) ∧ (ft, v) ∈ g := by
  induction g with
  | nil => simp [appendLink] at h
  | cons hd rest ih =>
    obtain ⟨k, w⟩ := hd
    by_cases hk : k = ft
    · subst hk
      simp only [appendLink, if_pos rfl] at h
      rcases List.mem_cons.mp h with h | h
      · exact Or.inr ⟨w, h, List.mem_cons_self _ _⟩
      · exact Or.inl (List.mem_cons_of_mem _ h)
    · simp only [appendLink, if_neg hk] at h
      rcases List.mem_cons.mp h with h | h
      · exact Or.inl (h ▸ List.mem_cons_self _ _)
      · rcases ih h with h | ⟨v, hv, hm⟩
        · exact Or.inl (List.mem_cons_of_mem _ h)
        · exact Or.inr ⟨v, hv, List.mem_cons_of_mem _ hm⟩

theorem keys_addEdge (g : AdjList) (ft tt x : String) :
    x ∈ keys (addEdge g ft tt) ↔ x ∈ keys g ∨ x = ft ∨ x = tt := by
  unfold addEdge
  rw [keys_appendLink, keys_ensureKey, keys_ensureKey]
  tauto

theorem get_connections_addEdge_self (g : AdjList) (ft tt : String) :
    get_connections (addEdge g ft tt) ft = get_connections g ft ++ [tt] := by
  unfold addEdge
  have hft : ft ∈ keys (ensureKey (ensureKey g ft) tt) :=
    (keys_ensureKey _ tt ft).mpr (Or.inl ((keys_ensureKey g ft ft).mpr (Or.inr rfl)))
  obtain ⟨v, hv⟩ := Option.isSome_iff_exists.mp (lookupList_isSome_of_mem hft)
  have h1 : get_connections (ensureKey (ensureKey g ft) tt) ft = get_connections g ft := by
    rw [get_connections_ensureKey, get_connections_ensureKey]
  have h2 : get_connections g ft = v := by
    rw [← h1, get_connections, hv]
    rfl
  rw [get_connections, lookupList_appendLink_self, hv, h2]
  rfl

theorem get_connections_addEdge_other (g : AdjList) (ft tt x : String) (hx : x ≠ ft) :
    get_connections (addEdge g ft tt) x = get_connections g x := by
  unfold addEdge
  rw [get_connections, lookupList_appendLink_other _ _ _ _ hx, ← get_connections,
    get_connections_ensureKey, get_connections_ensureKey]

/-- For a fixed title `t`, the contribution of one input line to `t`'s
out-link list: the record's to-title, when the line is well-formed and its
from-title is `t`. -/
def linksOf (t : String) (line : String) : Option String :=
  match parseLine line with
  | some (ft, tt) => if ft = t then some tt else none
  | none => none

theorem processLine_connections (g : AdjList) (line : String) (t : String) :
    get_connections (processLine g line) t =
      get_connections g t ++ (linksOf t line).toList := by
  unfold processLine linksOf
  cases hp : parseLine line with
  | none => simp
  | some p =>
    obtain ⟨ft, tt⟩ := p
    by_cases hft : ft = t
    · subst hft
      simp [get_connections_addEdge_self]
    · simp [hft, get_connections_addEdge_other g ft tt t (fun h => hft h.symm)]

theorem foldl_processLine_connections (rest : List String) (g : AdjList) (t : String) :
    get_connections (rest.foldl processLine g) t =
      get_connections g t ++ rest.filterMap (linksOf t) := by
  induction rest generalizing g with
  | nil => simp
  | cons line rest ih =>
    simp only [List.foldl_cons, ih, processLine_connections, List.filterMap_cons]
    cases h : linksOf t line <;> simp [h]

theorem foldl_processLine_keys_mono {rest : List String} {g : AdjList} {x : String}
    (h : x ∈ keys g) : x ∈ keys (rest.foldl processLine g) := by
  induction rest generalizing g with
  | nil => exact h
  | cons line rest ih =>
    refine ih ?_
    unfold processLine
    cases hp : parseLine line with
    | none => exact h
    | some p => exact (keys_addEdge g p.1 p.2 x).mpr (Or.inl h)

theorem foldl_processLine_keys_record {rest : List String} {g : AdjList}
    {line : String} (hline : line ∈ rest) {ft tt : String}
    (hp : parseLine line = some (ft, tt)) :
    ft ∈ keys (rest.foldl processLine g) ∧ tt ∈ keys (rest.foldl processLine g) := by
  induction rest generalizing g with
  | nil => simp at hline
  | cons l rest ih =>
    rcases List.mem_cons.mp hline with hl | hl
    · subst hl
      simp only [List.foldl_cons, processLine, hp]
      constructor
      · exact foldl_processLine_keys_mono ((keys_addEdge g ft tt ft).mpr (Or.inr (Or.inl rfl)))
      · exact foldl_processLine_keys_mono ((keys_addEdge g ft tt tt).mpr (Or.inr (Or.inr rfl)))
    · exact ih hl

/-- A mapping is closed when every out-link target has its own entry: the
Graph Store invariant that `load` establishes. -/
abbrev Closed (g : AdjList) : Prop := ∀ kv ∈ g, ∀ y ∈ kv.2, y ∈ keys g

theorem Closed_addEdge {g : AdjList} (hc : Closed g) (ft tt : String) :
    Closed (addEdge g ft tt) := by
  intro kv hkv y hy
  have hmemkeys : ∀ z, z ∈ keys g → z ∈ keys (addEdge g ft tt) :=
    fun z hz => (keys_addEdge g ft tt z).mpr (Or.inl hz)
  have htt : tt ∈ keys (addEdge g ft tt) := (keys_addEdge g ft tt tt).mpr (Or.inr (Or.inr rfl))
  have hg2 : ∀ kw : String × List String, kw ∈ ensureKey (ensureKey g ft) tt →
      ∀ z ∈ kw.2, z ∈ keys g := by
    intro kw hkw z hz
    rcases mem_ensureKey hkw with hkw | rfl
    · rcases mem_ensureKey hkw with hkw | rfl
      · exact hc kw hkw z hz
      · simp at hz
    · simp at hz
  unfold addEdge at hkv
  rcases appendLink_mem hkv with hkv | ⟨v, hv, hm⟩
  · exact hmemkeys y (hg2 kv hkv y hy)
  · subst hv
    simp only at hy
    rcases List.mem_append.mp hy with hy | hy
    · exact hmemkeys y (hg2 (ft, v) hm y hy)
    · simp at hy
      subst hy
      exact htt

theorem build_graph_Closed {lines : List String} {G : AdjList}
    (h : build_graph_from_file lines [] = some G) : Closed G := by
  match lines with
  | [] => simp [build_graph_from_file] at h
  | hd :: rest =>
    simp only [build_graph_from_file, Option.some.injEq] at h
    subst h
    have : ∀ (g : AdjList), Closed g → Closed (rest.foldl processLine g) := by
      induction rest with
      | nil => exact fun g hg => hg
      | cons l rest ih =>
        intro g hg
        simp only [List.foldl_cons]
        refine ih _ ?_
        unfold processLine
        cases parseLine l with
        | none => exact hg
        | some p => exact Closed_addEdge hg p.1 p.2
    exact this [] (by intro kv hkv; simp at hkv)

theorem parseLine_eq_none {line : String} (h : (fields line).length ≠ 4) :
    parseLine line = none := by
  unfold parseLine
  rcases hf : fields line with _ | ⟨a1, _ | ⟨b1, _ | ⟨c1, _ | ⟨d1, _ | ⟨e1, t5⟩⟩⟩⟩⟩
  · rfl
  · rfl
  · rfl
  · rfl
  · refine absurd ?_ h
    rw [hf]
    rfl
  · rfl

theorem parseLine_eq_some {line a b c d : String} (h : fields line = [a, b, c, d]) :
    parseLine line = some (b, d) := by
  unfold parseLine
  rw [h]

/-! ## Cache lemmas -/

theorem decodeLinks_map_str (l : List String) :
    decodeLinks (l.map Json.str) = some l := by
  induction l with
  | nil => rfl
  | cons s rest ih => simp [decodeLinks, ih]

/-! ## Claim C4: tolerant parsing of the edge-list source -/

/-- **C4.** `load` discards the first line unconditionally as a header (the
result does not depend on its content), silently skips every line that does
not split into exactly 4 tab-separated fields, and for every well-formed
record adds exactly one directed edge from the second field to the fourth
field (the numeric ID fields never influence the result). -/
theorem build_graph_parsing (g : AdjList) (h1 h2 : String) (rest : List String)
    (line a b c d : String) :
    build_graph_from_file (h1 :: rest) g = build_graph_from_file (h2 :: rest) g
    ∧ ((fields line).length ≠ 4 → processLine g line = g)
    ∧ (fields line = [a, b, c, d] →
        get_connections (processLine g line) b = get_connections g b ++ [d]
        ∧ ∀ x, x ≠ b → get_connections (processLine g line) x = get_connections g x) := by
  refine ⟨rfl, ?_, ?_⟩
  · intro hlen
    simp [processLine, parseLine_eq_none hlen]
  · intro hf
    have hp := parseLine_eq_some hf
    simp only [processLine, hp]
    exact ⟨get_connections_addEdge_self g b d,
      fun x hx => get_connections_addEdge_other g b d x hx⟩

theorem build_graph_parsing_witness :
    build_graph_from_file ["header line", "1\tA\t2\tB"] []
        = build_graph_from_file ["a different header", "1\tA\t2\tB"] []
    ∧ processLine [] "only one field" = []
    ∧ get_connections (processLine [] "1\tA\t2\tB") "A" = get_connections [] "A" ++ ["B"]
    ∧ get_connections (processLine [] "1\tA\t2\tB") "Z" = get_connections [] "Z" := by
  have hm := build_graph_parsing [] "header line" "a different header"
    ["1\tA\t2\tB"] "only one field" "" "" "" ""
  have hw := build_graph_parsing [] "header line" "a different header"
    ["1\tA\t2\tB"] "1\tA\t2\tB" "1" "A" "2" "B"
  exact ⟨hw.1, hm.2.1 (by decide), (hw.2.2 (by decide)).1,
    (hw.2.2 (by decide)).2 "Z" (by decide)⟩

/-! ## Claim C5: every endpoint gets an entry; duplicate edges survive -/

/-- **C5.** After `load` completes, both titles of every well-formed record
are keys of the mapping, and each title's out-link sequence is exactly the
ordered sequence of to-titles of the well-formed records naming it as
from-title (appended to whatever the mapping already held) — in particular a
repeated record `A -> B` contributes one more `B`, preserving duplicates. -/
theorem build_graph_entries (g0 : AdjList) (hd : String) (rest : List String)
    (G : AdjList) (hbuild : build_graph_from_file (hd :: rest) g0 = some G) :
    (∀ line ∈ rest, ∀ a b c d : String, fields line = [a, b, c, d] →
        b ∈ keys G ∧ d ∈ keys G)
    ∧ (∀ t, get_connections G t = get_connections g0 t ++ rest.filterMap (linksOf t)) := by
  simp only [build_graph_from_file, Option.some.injEq] at hbuild
  subst hbuild
  constructor
  · intro line hline a b c d hf
    exact foldl_processLine_keys_record hline (parseLine_eq_some hf)
  · intro t
    exact foldl_processLine_connections rest g0 t

theorem build_graph_entries_witness :
    ("A" ∈ keys (["1\tA\t2\tB", "1\tA\t2\tB"].foldl processLine [])
      ∧ "B" ∈ keys (["1\tA\t2\tB", "1\tA\t2\tB"].foldl processLine []))
    ∧ get_connections (["1\tA\t2\tB", "1\tA\t2\tB"].foldl processLine []) "A"
        = get_connections ([] : AdjList) "A"
            ++ ["1\tA\t2\tB", "1\tA\t2\tB"].filterMap (linksOf "A")
    ∧ get_connections (["1\tA\t2\tB", "1\tA\t2\tB"].foldl processLine []) "A"
        = ["B", "B"] := by
  have h := build_graph_entries [] "hdr" ["1\tA\t2\tB", "1\tA\t2\tB"]
    (["1\tA\t2\tB", "1\tA\t2\tB"].foldl processLine []) rfl
  refine ⟨h.1 "1\tA\t2\tB" (by decide) "1" "A" "2" "B" (by decide), h.2 "A", ?_⟩
  rw [h.2 "A"]
  decide

/-! ## Claim C7: JSON cache round trip -/

/-- **C7.** Serializing the adjacency mapping to the JSON cache
representation and loading it back reproduces the same mapping: the same
keys with the same out-link sequences in the same order. -/
theorem cache_round_trip : ∀ g : AdjList, load_cache (cache_data g) = some g := by
  intro g
  induction g with
  | nil => rfl
  | cons kv rest ih =>
    obtain ⟨k, v⟩ := kv
    simp only [cache_data, load_cache, List.map_cons, decodeEntries, decodeLinks_map_str]
    simp only [cache_data, load_cache] at ih
    rw [ih]

/-! ## Claim C8: total connection lookup and degree report -/

/-- **C8.** `get_connections` never fails: it returns the stored out-link
sequence of a present title and the empty sequence for an absent one; on a
closed mapping (the Graph Store invariant) an absent title has out-degree 0
and in-degree 0, so the degree report always succeeds. -/
theorem connections_degrees_total (g : AdjList) (t : String) (hc : Closed g) :
    (∀ v, lookupList g t = some v → get_connections g t = v)
    ∧ (t ∉ keys g →
        get_connections g t = [] ∧ get_out_degree g t = 0 ∧ get_in_degree g t = 0) := by
  constructor
  · intro v hv
    simp [get_connections, hv]
  · intro habs
    have h1 : get_connections g t = [] := get_connections_of_not_mem habs
    refine ⟨h1, by simp [get_out_degree, h1], ?_⟩
    unfold get_in_degree
    rw [List.countP_eq_zero]
    intro kv hkv
    simp only [decide_eq_true_eq]
    intro hmem
    exact habs (hc kv hkv t hmem)

theorem connections_degrees_total_witness :
    get_connections [("A", ["B"]), ("B", [])] "Z" = []
    ∧ get_out_degree [("A", ["B"]), ("B", [])] "Z" = 0
    ∧ get_in_degree [("A", ["B"]), ("B", [])] "Z" = 0 := by
  exact (connections_degrees_total [("A", ["B"]), ("B", [])] "Z" (by decide)).2 (by decide)

/-! ## BFS shortest path (`find_shortest_path`, wiki.py lines 109-151) -/

/-- A queue entry: the dequeued page together with the full path from the
start carried alongside it (wiki.py line 136). -/
abbrev Entry := String × List String

/-- The inner `for neighbor in self.get_connections(current_page)` loop
(wiki.py lines 146-149): each not-yet-visited neighbor is appended to the
queue with the extended path and marked visited at enqueue time. -/
def expand (g : AdjList) (path : List String) :
    List String → Finset String → List Entry → Finset String × List Entry
  | [], vis, q => (vis, q)
  | n :: ns, vis, q =>
      if n ∈ vis then expand g path ns vis q
      else expand g path ns (insert n vis) (q ++ [(n, path ++ [n])])

/-- The `while queue:` loop (wiki.py lines 139-151), with explicit fuel:
dequeue from the front, return the carried path when the target is reached,
otherwise mark the page visited and expand its connections. -/
def bfsLoop (g : AdjList) (e : String) : Nat → List Entry → Finset String → Option (List String)
  | 0, _, _ => none
  | _ + 1, [], _ => none
  | fuel + 1, (cur, path) :: rest, vis =>
      if cur = e then some path
      else
        let st := expand g path (get_connections g cur) (insert cur vis) rest
        bfsLoop g e fuel st.2 st.1

/-- Every string occurring in the mapping (keys and link targets): the BFS
can only ever enqueue members of this set, which bounds its iteration count. -/
def universeF (g : AdjList) : Finset String :=
  (g.map Prod.fst).toFinset ∪ (g.map Prod.snd).flatten.toFinset

/-- The BFS search from `queue = deque([(start, [start])])`, `visited = set()`
(wiki.py lines 135-137); the fuel `|universeF g| + 1` is shown sufficient. -/
def bfs_search (g : AdjList) (s e : String) : Option (List String) :=
  bfsLoop g e ((universeF g).card + 1) [(s, [s])] ∅

/-- The three shapes `find_shortest_path` can produce: Python `None`, the
two-element list `[0, [start_page]]` of the `start == end` branch
(wiki.py line 133), and a plain path list from the BFS. -/
inductive BFSResult where
  | notFound
  | tagged (steps : Nat) (path : List String)
  | plain (path : List String)
deriving DecidableEq

/-- `find_shortest_path` (wiki.py lines 126-151) on the adjacency mapping:
the absence check on both endpoints comes first, then the `start == end`
branch, then the BFS. -/
def find_path (g : AdjList) (s e : String) : BFSResult :=
  if s ∈ keys g ∧ e ∈ keys g then
    if s = e then BFSResult.tagged 0 [s]
    else
      match bfs_search g s e with
      | some p => BFSResult.plain p
      | none => BFSResult.notFound
  else BFSResult.notFound

/-- The `WikipediaGraph` object state: the adjacency mapping and the two
mutable session pointers (wiki.py lines 14-16). -/
structure WikipediaGraph where
  adj_list : AdjList
  start_page : Option String
  end_page : Option String

/-- Method `find_shortest_path`: overwrites both session pointers with its
arguments (wiki.py lines 126-127) before any check, and returns the query
result; the mapping itself is untouched. -/
def WikipediaGraph.find_shortest_path (w : WikipediaGraph) (s e : String) :
    WikipediaGraph × BFSResult :=
  ({ w with start_page := some s, end_page := some e }, find_path w.adj_list s e)

/-- Method `get_connections` as a state transformer: reads only. -/
def WikipediaGraph.get_connections (w : WikipediaGraph) (t : String) :
    WikipediaGraph × List String :=
  (w, Wiki.get_connections w.adj_list t)

/-- Method `get_out_degree` as a state transformer: reads only. -/
def WikipediaGraph.get_out_degree (w : WikipediaGraph) (t : String) :
    WikipediaGraph × Nat :=
  (w, Wiki.get_out_degree w.adj_list t)

/-- Method `get_in_degree` as a state transformer: reads only. -/
def WikipediaGraph.get_in_degree (w : WikipediaGraph) (t : String) :
    WikipediaGraph × Nat :=
  (w, Wiki.get_in_degree w.adj_list t)

/-- A directed path of the graph: `IsPath g s t p` says `p` begins at `s`,
ends at `t`, and each consecutive pair is connected by a directed edge
(membership in the out-link list). -/
inductive IsPath (g : AdjList) : String → String → List String → Prop
  | single (x : String) : IsPath g x x [x]
  | cons (x y z : String) (p : List String) :
      y ∈ get_connections g x → IsPath g y z p → IsPath g x z (x :: p)

theorem IsPath.ne_nil {g : AdjList} {s t : String} {p : List String}
    (h : IsPath g s t p) : p ≠ [] := by
  cases h <;> simp

theorem IsPath.length_pos {g : AdjList} {s t : String} {p : List String}
    (h : IsPath g s t p) : 1 ≤ p.length := by
  cases h <;> simp

theorem IsPath.snoc {g : AdjList} {s t : String} {p : List String}
    (h : IsPath g s t p) {y : String} (hy : y ∈ get_connections g t) :
    IsPath g s y (p ++ [y]) := by
  induction h with
  | single x => exact IsPath.cons x y y [y] hy (IsPath.single y)
  | cons x m z q hm hq ih => exact IsPath.cons x m y (q ++ [y]) hm (ih hy)

theorem IsPath.eq_single {g : AdjList} {s t : String} {p : List String}
    (h : IsPath g s t p) (hlen : p.length = 1) : p = [s] ∧ t = s := by
  cases h with
  | single x => exact ⟨rfl, rfl⟩
  | cons x y z q hm hq =>
    exfalso
    have hlen' : q.length + 1 = 1 := by simpa using hlen
    have hq0 : q.length = 0 := by omega
    exact hq.ne_nil (List.length_eq_zero.mp hq0)

theorem IsPath.unsnoc {g : AdjList} {s t : String} {p : List String}
    (h : IsPath g s t p) (hlen : 2 ≤ p.length) :
    ∃ q m, p = q ++ [t] ∧ IsPath g s m q ∧ t ∈ get_connections g m ∧
      q.length + 1 = p.length := by
  induction h with
  | single x => simp at hlen
  | cons x y z q hm hq ih =>
    by_cases h1 : q.length = 1
    · obtain ⟨hq1, hz⟩ := hq.eq_single h1
      subst hz
      subst hq1
      exact ⟨[x], x, rfl, IsPath.single x, hm, rfl⟩
    · have h2 : 2 ≤ q.length := by
        have := hq.length_pos
        omega
      obtain ⟨q', m, hqe, hq', hmem, hql⟩ := ih h2
      refine ⟨x :: q', m, by simp [hqe], IsPath.cons x y m q' hm hq', hmem, ?_⟩
      simp at hql ⊢
      omega

theorem IsPath.head_start {g : AdjList} {s t : String} {p : List String}
    (h : IsPath g s t p) : p.head? = some s := by
  cases h <;> rfl

theorem IsPath.last_end {g : AdjList} {s t : String} {p : List String}
    (h : IsPath g s t p) : p.getLast? = some t := by
  induction h with
  | single x => rfl
  | cons x y z q hm hq ih =>
    cases q with
    | nil => exact absurd rfl hq.ne_nil
    | cons a l =>
      rw [List.getLast?_cons_cons]
      exact ih

theorem chain_isPath (g : AdjList) (p : List String) :
    ∀ s t : String, p.head? = some s → p.getLast? = some t →
      List.Chain' (fun a b => b ∈ get_connections g a) p → IsPath g s t p := by
  induction p with
  | nil =>
    intro s t h
    simp at h
  | cons a l ih =>
    intro s t hhead hlast hchain
    have ha : a = s := by simpa using hhead
    subst ha
    cases l with
    | nil =>
      have hta : a = t := by simpa using hlast
      subst hta
      exact IsPath.single a
    | cons b l' =>
      have hab : b ∈ get_connections g a := (List.chain'_cons.mp hchain).1
      refine IsPath.cons a b t (b :: l') hab ?_
      refine ih b t rfl ?_ (List.chain'_cons.mp hchain).2
      rw [List.getLast?_cons_cons] at hlast
      exact hlast

/-! ## Properties of `expand` -/

theorem mem_universeF_of_connection {g : AdjList} {x y : String}
    (hy : y ∈ get_connections g x) : y ∈ universeF g := by
  unfold get_connections at hy
  cases hl : lookupList g x with
  | none =>
    rw [hl] at hy
    simp at hy
  | some v =>
    rw [hl] at hy
    simp only [Option.getD_some] at hy
    have hv : (x, v) ∈ g := lookupList_mem hl
    unfold universeF
    refine Finset.mem_union_right _ ?_
    rw [List.mem_toFinset]
    exact List.mem_flatten.mpr ⟨v, List.mem_map_of_mem Prod.snd hv, hy⟩

theorem pairwise_of_all {α : Type} {R : α → α → Prop} :
    ∀ l : List α, (∀ a ∈ l, ∀ b ∈ l, R a b) → l.Pairwise R
  | [], _ => List.Pairwise.nil
  | a :: l, h =>
      List.Pairwise.cons
        (fun b hb => h a (List.mem_cons_self a l) b (List.mem_cons_of_mem a hb))
        (pairwise_of_all l (fun x hx y hy =>
          h x (List.mem_cons_of_mem a hx) y (List.mem_cons_of_mem a hy)))

theorem expand_queue (g : AdjList) (path : List String) :
    ∀ (ns : List String) (vis : Finset String) (q : List Entry),
      ∃ ext : List Entry,
        (expand g path ns vis q).2 = q ++ ext
        ∧ ∀ x ∈ ext, x.1 ∈ ns ∧ x.2 = path ++ [x.1] ∧ x.1 ∉ vis := by
  intro ns
  induction ns with
  | nil =>
    intro vis q
    exact ⟨[], by simp [expand], by simp⟩
  | cons n ns ih =>
    intro vis q
    by_cases hn : n ∈ vis
    · obtain ⟨ext, he1, he2⟩ := ih vis q
      refine ⟨ext, by simpa [expand, hn] using he1, fun x hx => ?_⟩
      exact ⟨List.mem_cons_of_mem _ (he2 x hx).1, (he2 x hx).2.1, (he2 x hx).2.2⟩
    · obtain ⟨ext, he1, he2⟩ := ih (insert n vis) (q ++ [(n, path ++ [n])])
      refine ⟨(n, path ++ [n]) :: ext, ?_, ?_⟩
      · have hstep : expand g path (n :: ns) vis q
            = expand g path ns (insert n vis) (q ++ [(n, path ++ [n])]) := by
          simp [expand, hn]
        rw [hstep, he1]
        simp
      · intro x hx
        rcases List.mem_cons.mp hx with rfl | hx
        · exact ⟨List.mem_cons_self _ _, rfl, hn⟩
        · obtain ⟨h1, h2, h3⟩ := he2 x hx
          exact ⟨List.mem_cons_of_mem _ h1, h2,
            fun hv => h3 (Finset.mem_insert_of_mem hv)⟩

theorem expand_vis_mono (g : AdjList) (path : List String) :
    ∀ (ns : List String) (vis : Finset String) (q : List Entry),
      vis ⊆ (expand g path ns vis q).1 := by
  intro ns
  induction ns with
  | nil =>
    intro vis q
    simp [expand]
  | cons n ns ih =>
    intro vis q
    by_cases hn : n ∈ vis
    · simpa [expand, hn] using ih vis q
    · have hstep : expand g path (n :: ns) vis q
          = expand g path ns (insert n vis) (q ++ [(n, path ++ [n])]) := by
        simp [expand, hn]
      rw [hstep]
      exact fun y hy => ih (insert n vis) (q ++ [(n, path ++ [n])]) (Finset.mem_insert_of_mem hy)

theorem expand_vis_src (g : AdjList) (path : List String) :
    ∀ (ns : List String) (vis : Finset String) (q : List Entry),
      ∀ y ∈ (expand g path ns vis q).1,
        y ∈ vis ∨ y ∈ ((expand g path ns vis q).2).map Prod.fst := by
  intro ns
  induction ns with
  | nil =>
    intro vis q y hy
    exact Or.inl (by simpa [expand] using hy)
  | cons n ns ih =>
    intro vis q
    by_cases hn : n ∈ vis
    · intro y hy
      simp only [expand, if_pos hn] at hy ⊢
      exact ih vis q y hy
    · intro y hy
      have hstep : expand g path (n :: ns) vis q
          = expand g path ns (insert n vis) (q ++ [(n, path ++ [n])]) := by
        simp [expand, hn]
      rw [hstep] at hy ⊢
      rcases ih (insert n vis) (q ++ [(n, path ++ [n])]) y hy with hv | hv
      · rcases Finset.mem_insert.mp hv with rfl | hv
        · refine Or.inr ?_
          obtain ⟨ext, he1, -⟩ := expand_queue g path ns (insert y vis) (q ++ [(y, path ++ [y])])
          rw [he1]
          simp
        · exact Or.inl hv
      · exact Or.inr hv

theorem expand_covers (g : AdjList) (path : List String) :
    ∀ (ns : List String) (vis : Finset String) (q : List Entry),
      ∀ n ∈ ns, n ∈ (expand g path ns vis q).1 := by
  intro ns
  induction ns with
  | nil =>
    intro vis q n hn
    simp at hn
  | cons n ns ih =>
    intro vis q m hm
    by_cases hn : n ∈ vis
    · have hstep : expand g path (n :: ns) vis q = expand g path ns vis q := by
        simp [expand, hn]
      rw [hstep]
      rcases List.mem_cons.mp hm with rfl | hm
      · exact expand_vis_mono g path ns vis q hn
      · exact ih vis q m hm
    · have hstep : expand g path (n :: ns) vis q
          = expand g path ns (insert n vis) (q ++ [(n, path ++ [n])]) := by
        simp [expand, hn]
      rw [hstep]
      rcases List.mem_cons.mp hm with rfl | hm
      · exact expand_vis_mono g path ns (insert m vis) _ (Finset.mem_insert_self m vis)
      · exact ih (insert n vis) _ m hm

theorem expand_measure (g : AdjList) (path : List String) (U : Finset String) :
    ∀ (ns : List String) (vis : Finset String) (q : List Entry),
      (∀ n ∈ ns, n ∈ U) →
      (expand g path ns vis q).2.length + (U \ (expand g path ns vis q).1).card
        ≤ q.length + (U \ vis).card := by
  intro ns
  induction ns with
  | nil =>
    intro vis q _
    simp [expand]
  | cons n ns ih =>
    intro vis q hU
    by_cases hn : n ∈ vis
    · have hstep : expand g path (n :: ns) vis q = expand g path ns vis q := by
        simp [expand, hn]
      rw [hstep]
      exact ih vis q (fun m hm => hU m (List.mem_cons_of_mem n hm))
    · have hstep : expand g path (n :: ns) vis q
          = expand g path ns (insert n vis) (q ++ [(n, path ++ [n])]) := by
        simp [expand, hn]
      rw [hstep]
      have h1 := ih (insert n vis) (q ++ [(n, path ++ [n])])
        (fun m hm => hU m (List.mem_cons_of_mem n hm))
      have hcard : (U \ insert n vis).card < (U \ vis).card := by
        refine Finset.card_lt_card ?_
        rw [Finset.ssubset_def]
        constructor
        · intro x hx
          rcases Finset.mem_sdiff.mp hx with ⟨hxU, hxv⟩
          exact Finset.mem_sdiff.mpr ⟨hxU, fun hv => hxv (Finset.mem_insert_of_mem hv)⟩
        · intro hsub
          have hnm : n ∈ U \ vis :=
            Finset.mem_sdiff.mpr ⟨hU n (List.mem_cons_self n ns), hn⟩
          have := hsub hnm
          rcases Finset.mem_sdiff.mp this with ⟨-, habs⟩
          exact habs (Finset.mem_insert_self n vis)
      simp only [List.length_append, List.length_cons, List.length_nil] at h1 ⊢
      omega

/-- The BFS termination measure: queue length plus the unvisited part of the
string universe of the graph. -/
def bfsMeasure (g : AdjList) (Q : List Entry) (V : Finset String) : Nat :=
  Q.length + ((universeF g) \ V).card

theorem bfs_step_measure (g : AdjList) (cur : String) (pc : List String)
    (rest : List Entry) (V : Finset String) :
    bfsMeasure g (expand g pc (get_connections g cur) (insert cur V) rest).2
        (expand g pc (get_connections g cur) (insert cur V) rest).1
      < bfsMeasure g ((cur, pc) :: rest) V := by
  have h1 := expand_measure g pc (universeF g) (get_connections g cur) (insert cur V) rest
    (fun n hn => mem_universeF_of_connection hn)
  have h2 : (universeF g \ insert cur V).card ≤ (universeF g \ V).card := by
    refine Finset.card_le_card ?_
    intro x hx
    rcases Finset.mem_sdiff.mp hx with ⟨hxU, hxv⟩
    exact Finset.mem_sdiff.mpr ⟨hxU, fun hv => hxv (Finset.mem_insert_of_mem hv)⟩
  unfold bfsMeasure at h1 ⊢
  simp only [List.length_cons]
  omega

/-- Paths in the sense of `IsPath` are exactly the nonempty title sequences
that begin at `s`, end at `t`, and link every consecutive pair. -/
theorem isPath_iff_chain (g : AdjList) (s t : String) (p : List String) :
    IsPath g s t p ↔
      p ≠ [] ∧ p.head? = some s ∧ p.getLast? = some t ∧
        List.Chain' (fun a b => b ∈ get_connections g a) p := by
  constructor
  · intro h
    refine ⟨h.ne_nil, h.head_start, h.last_end, ?_⟩
    induction h with
    | single x => simp
    | cons x y z q hm hq ih =>
      cases q with
      | nil => exact absurd rfl hq.ne_nil
      | cons a l =>
        have ha : a = y := by
          have := hq.head_start
          simpa using this
        subst ha
        exact List.Chain'.cons hm ih
  · rintro ⟨hne, hhead, hlast, hchain⟩
    exact chain_isPath g p s t hhead hlast hchain

/-! ## The BFS loop invariant -/

/-- The invariant of the `while queue:` loop, relative to graph `g`, start
`s` and target `e`: queued paths are valid and optimal for their endpoint,
queue path lengths are non-decreasing with spread at most one, every node
strictly closer than the whole queue is visited and fully expanded, visited
nodes off the queue are fully expanded, and the target can only be visited
while still queued (otherwise it would already have been returned). -/
structure BFSInv (g : AdjList) (s e : String) (Q : List Entry) (V : Finset String) : Prop where
  valid : ∀ x ∈ Q, IsPath g s x.1 x.2
  sorted : Q.Pairwise (fun a b => a.2.length ≤ b.2.length)
  spread : ∀ a ∈ Q, ∀ b ∈ Q, b.2.length ≤ a.2.length + 1
  minimal : ∀ x ∈ Q, ∀ q, IsPath g s x.1 q → x.2.length ≤ q.length
  lb : ∀ m q, IsPath g s m q → (∀ x ∈ Q, q.length < x.2.length) →
    m ∈ V ∧ ∀ y ∈ get_connections g m, y ∈ V
  expcl : ∀ m ∈ V, m ∉ Q.map Prod.fst → ∀ y ∈ get_connections g m, y ∈ V
  target : e ∈ V → e ∈ Q.map Prod.fst

theorem bfsInv_init (g : AdjList) (s e : String) : BFSInv g s e [(s, [s])] ∅ := by
  refine ⟨?_, ?_, ?_, ?_, ?_, ?_, ?_⟩
  · intro x hx
    simp only [List.mem_singleton] at hx
    subst hx
    exact IsPath.single s
  · simp
  · intro a ha b hb
    simp only [List.mem_singleton] at ha hb
    subst ha
    subst hb
    omega
  · intro x hx q hq
    simp only [List.mem_singleton] at hx
    subst hx
    exact hq.length_pos
  · intro m q hq hall
    exfalso
    have h1 : q.length < 1 := hall (s, [s]) (List.mem_singleton.mpr rfl)
    have h2 := hq.length_pos
    omega
  · intro m hm
    exact absurd hm (Finset.not_mem_empty m)
  · intro hm
    exact absurd hm (Finset.not_mem_empty e)

/-- One iteration of the BFS loop (dequeue a non-target head, mark it
visited, expand its connections) preserves the invariant. -/
theorem bfsInv_step {g : AdjList} {s e cur : String} {pc : List String}
    {rest : List Entry} {V : Finset String}
    (hInv : BFSInv g s e ((cur, pc) :: rest) V) (hne : cur ≠ e) :
    BFSInv g s e (expand g pc (get_connections g cur) (insert cur V) rest).2
      (expand g pc (get_connections g cur) (insert cur V) rest).1 := by
  obtain ⟨ext, hq, hext⟩ := expand_queue g pc (get_connections g cur) (insert cur V) rest
  have hmono := expand_vis_mono g pc (get_connections g cur) (insert cur V) rest
  have hsrc := expand_vis_src g pc (get_connections g cur) (insert cur V) rest
  have hcov := expand_covers g pc (get_connections g cur) (insert cur V) rest
  have hVsub : V ⊆ (expand g pc (get_connections g cur) (insert cur V) rest).1 :=
    fun y hy => hmono (Finset.mem_insert_of_mem hy)
  have hcur1 : cur ∈ (expand g pc (get_connections g cur) (insert cur V) rest).1 :=
    hmono (Finset.mem_insert_self cur V)
  have hheadQ : (cur, pc) ∈ (cur, pc) :: rest := List.mem_cons_self _ _
  have hheadv : IsPath g s cur pc := hInv.valid (cur, pc) hheadQ
  have hL1 : 1 ≤ pc.length := hheadv.length_pos
  have hrest_ge : ∀ x ∈ rest, pc.length ≤ x.2.length :=
    (List.pairwise_cons.mp hInv.sorted).1
  have hrest_le : ∀ x ∈ rest, x.2.length ≤ pc.length + 1 :=
    fun x hx => hInv.spread (cur, pc) hheadQ x (List.mem_cons_of_mem _ hx)
  have hext_len : ∀ x ∈ ext, x.2.length = pc.length + 1 := by
    intro x hx
    rw [(hext x hx).2.1]
    simp
  have hext_notV : ∀ x ∈ ext, x.1 ∉ V :=
    fun x hx hv => (hext x hx).2.2 (Finset.mem_insert_of_mem hv)
  have hext_necur : ∀ x ∈ ext, x.1 ≠ cur :=
    fun x hx hc => (hext x hx).2.2 (hc ▸ Finset.mem_insert_self cur V)
  have hext_valid : ∀ x ∈ ext, IsPath g s x.1 x.2 := by
    intro x hx
    rw [(hext x hx).2.1]
    exact hheadv.snoc (hext x hx).1
  have hold_prem : ∀ (k : Nat), k < pc.length →
      ∀ x ∈ (cur, pc) :: rest, k < x.2.length := by
    intro k hk x hx
    rcases List.mem_cons.mp hx with rfl | hx
    · exact hk
    · exact lt_of_lt_of_le hk (hrest_ge x hx)
  have hnew_min : ∀ x ∈ ext, ∀ q, IsPath g s x.1 q → pc.length + 1 ≤ q.length := by
    intro x hx q hq'
    by_contra hlt
    push_neg at hlt
    have hle : q.length ≤ pc.length := Nat.lt_succ_iff.mp hlt
    rcases Nat.lt_or_ge q.length pc.length with hcase | hcase
    · exact hext_notV x hx (hInv.lb x.1 q hq' (hold_prem _ hcase)).1
    · by_cases h1 : q.length = 1
      · obtain ⟨hq1, hx1⟩ := hq'.eq_single h1
        obtain ⟨-, hcur_s⟩ := hheadv.eq_single (by omega)
        exact hext_necur x hx (by rw [hx1, hcur_s])
      · have h2 : 2 ≤ q.length := by
          have := hq'.length_pos
          omega
        obtain ⟨q', m', hqe, hq'', hmem, hql⟩ := hq'.unsnoc h2
        have hq'len : q'.length < pc.length := by omega
        exact hext_notV x hx ((hInv.lb m' q' hq'' (hold_prem _ hq'len)).2 x.1 hmem)
  have hexpcl2 : ∀ m ∈ (expand g pc (get_connections g cur) (insert cur V) rest).1,
      m ∉ ((expand g pc (get_connections g cur) (insert cur V) rest).2).map Prod.fst →
      ∀ y ∈ get_connections g m,
        y ∈ (expand g pc (get_connections g cur) (insert cur V) rest).1 := by
    intro m hm hnotin y hy
    rcases hsrc m hm with hv | hv
    · rcases Finset.mem_insert.mp hv with rfl | hv
      · exact hcov y hy
      · by_cases hmrest : m ∈ rest.map Prod.fst
        · exfalso
          apply hnotin
          rw [hq, List.map_append]
          exact List.mem_append_left _ hmrest
        · by_cases hmcur : m = cur
          · subst hmcur
            exact hcov y hy
          · have hmold : m ∉ ((cur, pc) :: rest).map Prod.fst := by
              simp only [List.map_cons, List.mem_cons]
              rintro (h | h)
              · exact hmcur h
              · exact hmrest h
            exact hVsub (hInv.expcl m hv hmold y hy)
    · exact absurd hv hnotin
  have hshort : (∀ x ∈ rest, pc.length + 1 ≤ x.2.length) →
      ∀ m q, IsPath g s m q → q.length ≤ pc.length →
        m ∈ (expand g pc (get_connections g cur) (insert cur V) rest).1 ∧
          ∀ y ∈ get_connections g m,
            y ∈ (expand g pc (get_connections g cur) (insert cur V) rest).1 := by
    intro hrest1 m q hq' hle
    rcases Nat.lt_or_ge q.length pc.length with hcase | hcase
    · obtain ⟨h1, h2⟩ := hInv.lb m q hq' (hold_prem _ hcase)
      exact ⟨hVsub h1, fun y hy => hVsub (h2 y hy)⟩
    · by_cases h1 : q.length = 1
      · obtain ⟨hq1, hm1⟩ := hq'.eq_single h1
        obtain ⟨-, hcur_s⟩ := hheadv.eq_single (by omega)
        have hmcur : m = cur := by rw [hm1, hcur_s]
        subst hmcur
        exact ⟨hcur1, fun y hy => hcov y hy⟩
      · have h2 : 2 ≤ q.length := by
          have := hq'.length_pos
          omega
        obtain ⟨q', m', hqe, hq'', hmem, hql⟩ := hq'.unsnoc h2
        have hq'len : q'.length < pc.length := by omega
        obtain ⟨hm'V, hm'exp⟩ := hInv.lb m' q' hq'' (hold_prem _ hq'len)
        have hmV : m ∈ V := hm'exp m hmem
        refine ⟨hVsub hmV, ?_⟩
        by_cases hmcur : m = cur
        · subst hmcur
          exact fun y hy => hcov y hy
        · by_cases hmrest : m ∈ rest.map Prod.fst
          · exfalso
            obtain ⟨x, hx, hx1⟩ := List.mem_map.mp hmrest
            have hxge : pc.length + 1 ≤ x.2.length := hrest1 x hx
            have hqm : IsPath g s x.1 q := by
              rw [hx1]
              exact hq'
            have hxmin : x.2.length ≤ q.length :=
              hInv.minimal x (List.mem_cons_of_mem _ hx) q hqm
            omega
          · have hmold : m ∉ ((cur, pc) :: rest).map Prod.fst := by
              simp only [List.map_cons, List.mem_cons]
              rintro (h | h)
              · exact hmcur h
              · exact hmrest h
            exact fun y hy => hVsub (hInv.expcl m hmV hmold y hy)
  have hlb2 : ∀ m q, IsPath g s m q →
      (∀ x ∈ (expand g pc (get_connections g cur) (insert cur V) rest).2,
        q.length < x.2.length) →
      m ∈ (expand g pc (get_connections g cur) (insert cur V) rest).1 ∧
        ∀ y ∈ get_connections g m,
          y ∈ (expand g pc (get_connections g cur) (insert cur V) rest).1 := by
    intro m q hpth hq2
    by_cases hlow : ∃ x, x ∈ (expand g pc (get_connections g cur) (insert cur V) rest).2
        ∧ x.2.length ≤ pc.length
    · obtain ⟨x0, hx0, hx0len⟩ := hlow
      have hqlen : q.length < pc.length := lt_of_lt_of_le (hq2 x0 hx0) hx0len
      obtain ⟨h1, h2⟩ := hInv.lb m q hpth (hold_prem _ hqlen)
      exact ⟨hVsub h1, fun y hy => hVsub (h2 y hy)⟩
    · push_neg at hlow
      have hrest1 : ∀ x ∈ rest, pc.length + 1 ≤ x.2.length := by
        intro x hx
        have hxm : x ∈ (expand g pc (get_connections g cur) (insert cur V) rest).2 := by
          rw [hq]
          exact List.mem_append_left _ hx
        exact hlow x hxm
      cases hq2e : (expand g pc (get_connections g cur) (insert cur V) rest).2 with
      | cons x0 rest2 =>
        have hx0mem : x0 ∈ (expand g pc (get_connections g cur) (insert cur V) rest).2 := by
          rw [hq2e]
          exact List.mem_cons_self _ _
        have hub : x0.2.length ≤ pc.length + 1 := by
          have hx0mem' := hx0mem
          rw [hq] at hx0mem'
          rcases List.mem_append.mp hx0mem' with hx | hx
          · exact hrest_le x0 hx
          · rw [hext_len x0 hx]
        have hqle : q.length ≤ pc.length := by
          have := hq2 x0 hx0mem
          omega
        exact hshort hrest1 m q hpth hqle
      | nil =>
        have hemset :
            ((expand g pc (get_connections g cur) (insert cur V) rest).2).map Prod.fst
              = [] := by
          rw [hq2e]
          rfl
        have hmem_all : ∀ (k : Nat) (m' : String) (q' : List String),
            IsPath g s m' q' → q'.length ≤ k →
            m' ∈ (expand g pc (get_connections g cur) (insert cur V) rest).1 := by
          intro k
          induction k with
          | zero =>
            intro m' q' hq' hk
            have := hq'.length_pos
            omega
          | succ k ihk =>
            intro m' q' hq' hk
            by_cases hql : q'.length ≤ pc.length
            · exact (hshort hrest1 m' q' hq' hql).1
            · have h2 : 2 ≤ q'.length := by omega
              obtain ⟨q'', m'', hqe, hq'', hmem, hqlen⟩ := hq'.unsnoc h2
              have hm'' := ihk m'' q'' hq'' (by omega)
              exact hexpcl2 m'' hm'' (by rw [hemset]; simp) m' hmem
        refine ⟨hmem_all q.length m q hpth le_rfl, ?_⟩
        exact hexpcl2 m (hmem_all q.length m q hpth le_rfl) (by rw [hemset]; simp)
  refine ⟨?_, ?_, ?_, ?_, hlb2, hexpcl2, ?_⟩
  · intro x hx
    rw [hq] at hx
    rcases List.mem_append.mp hx with hx | hx
    · exact hInv.valid x (List.mem_cons_of_mem _ hx)
    · exact hext_valid x hx
  · rw [hq, List.pairwise_append]
    refine ⟨(List.pairwise_cons.mp hInv.sorted).2, ?_, ?_⟩
    · exact pairwise_of_all ext (fun a ha b hb => by rw [hext_len a ha, hext_len b hb])
    · intro a ha b hb
      rw [hext_len b hb]
      exact (hrest_le a ha)
  · intro a ha b hb
    rw [hq] at ha hb
    have hage : pc.length ≤ a.2.length := by
      rcases List.mem_append.mp ha with h | h
      · exact hrest_ge a h
      · rw [hext_len a h]
        omega
    have hble : b.2.length ≤ pc.length + 1 := by
      rcases List.mem_append.mp hb with h | h
      · exact hrest_le b h
      · rw [hext_len b h]
    omega
  · intro x hx q hq'
    rw [hq] at hx
    rcases List.mem_append.mp hx with hx | hx
    · exact hInv.minimal x (List.mem_cons_of_mem _ hx) q hq'
    · rw [hext_len x hx]
      exact hnew_min x hx q hq'
  · intro hE
    rcases hsrc e hE with hv | hv
    · rcases Finset.mem_insert.mp hv with rfl | hv
      · exact absurd rfl hne
      · have htg := hInv.target hv
        simp only [List.map_cons, List.mem_cons] at htg
        rcases htg with h | h
        · exact absurd h.symm hne
        · rw [hq, List.map_append]
          exact List.mem_append_left _ h
    · exact hv

/-- The main BFS loop lemma: under the invariant, with fuel at least the
measure, a returned path is a shortest path from `s` to `e`, and a `none`
result means no directed path from `s` to `e` exists at all. -/
theorem bfsLoop_main (g : AdjList) (s e : String) :
    ∀ (fuel : Nat) (Q : List Entry) (V : Finset String),
      BFSInv g s e Q V → bfsMeasure g Q V ≤ fuel →
      (∀ p, bfsLoop g e fuel Q V = some p →
          IsPath g s e p ∧ ∀ q, IsPath g s e q → p.length ≤ q.length)
      ∧ (bfsLoop g e fuel Q V = none → ¬ ∃ q, IsPath g s e q) := by
  intro fuel
  induction fuel with
  | zero =>
    intro Q V hInv hm
    have hQ : Q = [] := by
      unfold bfsMeasure at hm
      have : Q.length = 0 := by omega
      exact List.length_eq_zero.mp this
    subst hQ
    constructor
    · intro p hp
      simp [bfsLoop] at hp
    · rintro - ⟨q, hq⟩
      have h1 := (hInv.lb e q hq (by intro x hx; simp at hx)).1
      have h2 := hInv.target h1
      simp at h2
  | succ fuel ih =>
    intro Q V hInv hm
    match Q with
    | [] =>
      constructor
      · intro p hp
        simp [bfsLoop] at hp
      · rintro - ⟨q, hq⟩
        have h1 := (hInv.lb e q hq (by intro x hx; simp at hx)).1
        have h2 := hInv.target h1
        simp at h2
    | (cur, pc) :: rest =>
      by_cases hcur : cur = e
      · subst hcur
        have hret : bfsLoop g cur (fuel + 1) ((cur, pc) :: rest) V = some pc := by
          simp [bfsLoop]
        constructor
        · intro p hp
          rw [hret] at hp
          obtain rfl : pc = p := Option.some.inj hp
          exact ⟨hInv.valid (cur, pc) (List.mem_cons_self _ _),
            fun q hq => hInv.minimal (cur, pc) (List.mem_cons_self _ _) q hq⟩
        · intro hp
          rw [hret] at hp
          exact absurd hp (by simp)
      · have hInv' := bfsInv_step hInv hcur
        have hmeas := bfs_step_measure g cur pc rest V
        have hfuel :
            bfsMeasure g (expand g pc (get_connections g cur) (insert cur V) rest).2
              (expand g pc (get_connections g cur) (insert cur V) rest).1 ≤ fuel := by
          omega
        have hstep : bfsLoop g e (fuel + 1) ((cur, pc) :: rest) V
            = bfsLoop g e fuel (expand g pc (get_connections g cur) (insert cur V) rest).2
                (expand g pc (get_connections g cur) (insert cur V) rest).1 := by
          simp [bfsLoop, hcur]
        rw [hstep]
        exact ih _ _ hInv' hfuel

theorem bfs_search_measure (g : AdjList) (s : String) :
    bfsMeasure g [(s, [s])] ∅ = (universeF g).card + 1 := by
  unfold bfsMeasure
  rw [Finset.sdiff_empty]
  simp only [List.length_singleton]
  omega

theorem bfs_search_sound {g : AdjList} {s e : String} {p : List String}
    (h : bfs_search g s e = some p) :
    IsPath g s e p ∧ ∀ q, IsPath g s e q → p.length ≤ q.length :=
  (bfsLoop_main g s e ((universeF g).card + 1) [(s, [s])] ∅ (bfsInv_init g s e)
    (le_of_eq (bfs_search_measure g s))).1 p h

theorem bfs_search_none {g : AdjList} {s e : String}
    (h : bfs_search g s e = none) : ¬ ∃ q, IsPath g s e q :=
  (bfsLoop_main g s e ((universeF g).card + 1) [(s, [s])] ∅ (bfsInv_init g s e)
    (le_of_eq (bfs_search_measure g s))).2 h

/-! ## Claim C1: BFS soundness and optimality -/

/-- **C1.** When both endpoints are present and distinct and
`find_shortest_path` returns a path, that path starts at `start`, ends at
`end`, follows directed edges between consecutive titles, and no directed
path from `start` to `end` in the graph is shorter. -/
theorem bfs_returns_shortest_path (g : AdjList) (s e : String) (p : List String)
    (hs : s ∈ keys g) (he : e ∈ keys g) (hne : s ≠ e)
    (hres : find_path g s e = BFSResult.plain p) :
    p.head? = some s ∧ p.getLast? = some e
    ∧ List.Chain' (fun a b => b ∈ get_connections g a) p
    ∧ ∀ q : List String, q ≠ [] → q.head? = some s → q.getLast? = some e →
        List.Chain' (fun a b => b ∈ get_connections g a) q → p.length ≤ q.length := by
  unfold find_path at hres
  rw [if_pos ⟨hs, he⟩, if_neg hne] at hres
  cases hbfs : bfs_search g s e with
  | none =>
    rw [hbfs] at hres
    simp at hres
  | some p' =>
    rw [hbfs] at hres
    simp only [BFSResult.plain.injEq] at hres
    subst hres
    obtain ⟨hp, hmin⟩ := bfs_search_sound hbfs
    refine ⟨hp.head_start, hp.last_end, ((isPath_iff_chain g s e p').mp hp).2.2.2, ?_⟩
    intro q hqne hqh hql hqc
    exact hmin q (chain_isPath g q s e hqh hql hqc)

theorem bfs_returns_shortest_path_witness :
    ("A" ∈ keys [("A", ["B"]), ("B", ["C"]), ("C", [])]
      ∧ "C" ∈ keys [("A", ["B"]), ("B", ["C"]), ("C", [])]
      ∧ find_path [("A", ["B"]), ("B", ["C"]), ("C", [])] "A" "C"
          = BFSResult.plain ["A", "B", "C"])
    ∧ (["A", "B", "C"] : List String).head? = some "A"
    ∧ (["A", "B", "C"] : List String).getLast? = some "C" := by
  have h := bfs_returns_shortest_path [("A", ["B"]), ("B", ["C"]), ("C", [])]
    "A" "C" ["A", "B", "C"] (by decide) (by decide) (by decide) (by decide)
  exact ⟨⟨by decide, by decide, by decide⟩, h.1, h.2.1⟩

/-! ## Claim C6: notFound exactly for absent or unreachable endpoints -/

/-- **C6.** `find_shortest_path` returns `None` exactly when an endpoint is
absent from the graph or no directed path from `start` to `end` exists; in
particular the absence check precedes the `start == end` check, so an
absent title queried against itself yields `None` (the right-hand side
holds with `start = end` whenever the title is absent). -/
theorem find_path_notFound_iff (g : AdjList) (s e : String) :
    find_path g s e = BFSResult.notFound ↔
      s ∉ keys g ∨ e ∉ keys g ∨ ¬ ∃ p, IsPath g s e p := by
  unfold find_path
  by_cases hk : s ∈ keys g ∧ e ∈ keys g
  · rw [if_pos hk]
    by_cases hse : s = e
    · subst hse
      rw [if_pos rfl]
      constructor
      · intro h
        simp at h
      · rintro (h | h | h)
        · exact absurd hk.1 h
        · exact absurd hk.2 h
        · exact absurd ⟨[s], IsPath.single s⟩ h
    · rw [if_neg hse]
      cases hbfs : bfs_search g s e with
      | some p =>
        constructor
        · intro h
          simp at h
        · rintro (h | h | h)
          · exact absurd hk.1 h
          · exact absurd hk.2 h
          · exact absurd ⟨p, (bfs_search_sound hbfs).1⟩ h
      | none =>
        constructor
        · intro _
          exact Or.inr (Or.inr (bfs_search_none hbfs))
        · intro _
          rfl
  · rw [if_neg hk]
    constructor
    · intro _
      rcases Decidable.not_and_iff_or_not.mp hk with h | h
      · exact Or.inl h
      · exact Or.inr (Or.inl h)
    · intro _
      rfl

/-! ## Claim C2: the start == end branch -/

/-- **C2 counterexample.** For a title present in the graph, querying it
against itself does not return the plain single-element path `[s]`: the
code returns the two-element value `[0, [s]]` (a step count paired with the
path), a structurally different result. -/
theorem trivial_path_cex :
    find_path [("A", [])] "A" "A" = BFSResult.tagged 0 ["A"]
    ∧ find_path [("A", [])] "A" "A" ≠ BFSResult.plain ["A"] := by
  constructor
  · decide
  · decide

/-- **C2 amended.** For every title `s` present in the graph,
`find_shortest_path(s, s)` returns the tagged value `[0, [s]]`: the marker
`0` paired with the zero-step single-element path `[s]`. -/
theorem trivial_path_tagged (g : AdjList) (s : String) (hs : s ∈ keys g) :
    find_path g s s = BFSResult.tagged 0 [s] := by
  unfold find_path
  rw [if_pos ⟨hs, hs⟩, if_pos rfl]

theorem trivial_path_tagged_witness :
    "A" ∈ keys [("A", [])]
    ∧ find_path [("A", [])] "A" "A" = BFSResult.tagged 0 ["A"] :=
  ⟨by decide, trivial_path_tagged [("A", [])] "A" (by decide)⟩

/-! ## Recommendations (`recommend_articles`, wiki.py lines 287-335) -/

/-- The shared-link count: size of the set intersection of the two pages'
out-link sets (wiki.py lines 306, 314, 317-318); duplicate out-links
collapse under `toFinset`. -/
def sharedCount (g : AdjList) (t c : String) : Nat :=
  ((get_connections g t).toFinset ∩ (get_connections g c).toFinset).card

/-- The body of the similarity loop (wiki.py lines 310-321) for one mapping
entry: skip the page itself, keep a positive shared-link score. -/
def simF (g : AdjList) (t : String) (kv : String × List String) : Option (String × Nat) :=
  if kv.1 = t then none
  else
    if 0 < ((get_connections g t).toFinset ∩ kv.2.toFinset).card then
      some (kv.1, ((get_connections g t).toFinset ∩ kv.2.toFinset).card)
    else none

/-- The similarity pass: one scan over the mapping in insertion order. -/
def similarities (g : AdjList) (t : String) : List (String × Nat) :=
  g.filterMap (simF g t)

/-- Stable insertion into a descending-by-score list: the new element goes
before the first element whose score is not larger, so among equal scores
earlier elements of the original list stay first — the placement realised
by Python's stable `list.sort(key=..., reverse=True)`. -/
def insertDesc (x : String × Nat) : List (String × Nat) → List (String × Nat)
  | [] => [x]
  | y :: ys => if y.2 ≤ x.2 then x :: y :: ys else y :: insertDesc x ys

/-- `similarities.sort(key=lambda x: x[1], reverse=True)` (wiki.py
line 329): stable descending sort by score. -/
def sortDesc (l : List (String × Nat)) : List (String × Nat) :=
  l.foldr insertDesc []

/-- The three outcomes of `recommend_articles`: absent title (an error),
no positive-overlap candidate (an explicit distinct outcome), or the list
of recommendations. -/
inductive RecResult where
  | notFound
  | noRecommendations
  | recommendations (recs : List (String × Nat))
deriving DecidableEq

/-- `recommend_articles` (wiki.py lines 287-335): check presence, scan for
positive shared-link candidates, sort by score descending (stable), and
keep the first `topN` (`similarities[:top_n]`). -/
def recommend_articles (g : AdjList) (t : String) (topN : Nat) : RecResult :=
  if t ∈ keys g then
    if similarities g t = [] then RecResult.noRecommendations
    else RecResult.recommendations ((sortDesc (similarities g t)).take topN)
  else RecResult.notFound

/-- The candidate titles with a positive shared-link count, in mapping
order. -/
def qualifying (g : AdjList) (t : String) : List String :=
  (keys g).filter (fun c => decide (c ≠ t ∧ 0 < sharedCount g t c))

/-! ## Sorting lemmas -/

theorem insertDesc_perm (x : String × Nat) (l : List (String × Nat)) :
    (insertDesc x l).Perm (x :: l) := by
  induction l with
  | nil => exact List.Perm.refl _
  | cons y ys ih =>
    by_cases h : y.2 ≤ x.2
    · rw [insertDesc, if_pos h]
    · rw [insertDesc, if_neg h]
      exact (List.Perm.cons y ih).trans (List.Perm.swap x y ys)

theorem sortDesc_perm (l : List (String × Nat)) : (sortDesc l).Perm l := by
  induction l with
  | nil => exact List.Perm.refl _
  | cons a l ih =>
    have h1 : sortDesc (a :: l) = insertDesc a (sortDesc l) := rfl
    rw [h1]
    exact (insertDesc_perm a (sortDesc l)).trans (List.Perm.cons a ih)

theorem insertDesc_sorted (x : String × Nat) (l : List (String × Nat))
    (hl : l.Pairwise (fun a b => b.2 ≤ a.2)) :
    (insertDesc x l).Pairwise (fun a b => b.2 ≤ a.2) := by
  induction l with
  | nil => simp [insertDesc]
  | cons y ys ih =>
    obtain ⟨hy, hys⟩ := List.pairwise_cons.mp hl
    by_cases h : y.2 ≤ x.2
    · rw [insertDesc, if_pos h]
      refine List.Pairwise.cons ?_ hl
      intro b hb
      rcases List.mem_cons.mp hb with rfl | hb
      · exact h
      · exact le_trans (hy b hb) h
    · rw [insertDesc, if_neg h]
      refine List.Pairwise.cons ?_ (ih hys)
      intro b hb
      have hb' := (insertDesc_perm x ys).mem_iff.mp hb
      rcases List.mem_cons.mp hb' with rfl | hb'
      · omega
      · exact hy b hb'

theorem sortDesc_sorted (l : List (String × Nat)) :
    (sortDesc l).Pairwise (fun a b => b.2 ≤ a.2) := by
  induction l with
  | nil => simp [sortDesc]
  | cons a l ih => exact insertDesc_sorted a (sortDesc l) ih

/-! ## The similarity pass on a mapping with unique keys -/

theorem filterMap_simF (g : AdjList) (t : String) :
    ∀ entries : AdjList,
      (∀ kv ∈ entries, lookupList g kv.1 = some kv.2) →
      entries.filterMap (simF g t)
        = ((entries.map Prod.fst).filter
            (fun c => decide (c ≠ t ∧ 0 < sharedCount g t c))).map
              (fun c => (c, sharedCount g t c)) := by
  intro entries
  induction entries with
  | nil =>
    intro h
    rfl
  | cons kv rest ih =>
    intro h
    have hkv := h kv (List.mem_cons_self _ _)
    have hconn : get_connections g kv.1 = kv.2 := by simp [get_connections, hkv]
    have hsc : sharedCount g t kv.1
        = ((get_connections g t).toFinset ∩ kv.2.toFinset).card := by
      rw [sharedCount, hconn]
    have htail := ih (fun x hx => h x (List.mem_cons_of_mem _ hx))
    simp only [List.filterMap_cons, List.map_cons, List.filter_cons]
    by_cases h1 : kv.1 = t
    · rw [show simF g t kv = none from by simp [simF, h1]]
      rw [show decide (kv.1 ≠ t ∧ 0 < sharedCount g t kv.1) = false from by simp [h1]]
      simpa using htail
    · by_cases h2 : 0 < ((get_connections g t).toFinset ∩ kv.2.toFinset).card
      · rw [show simF g t kv = some (kv.1, sharedCount g t kv.1) from by
          simp [simF, h1, h2, hsc]]
        rw [show decide (kv.1 ≠ t ∧ 0 < sharedCount g t kv.1) = true from by
          simp [h1, hsc, h2]]
        simpa using htail
      · rw [show simF g t kv = none from by simp [simF, h1, h2]]
        rw [show decide (kv.1 ≠ t ∧ 0 < sharedCount g t kv.1) = false from by
          simp [h1, hsc, h2]]
        simpa using htail

theorem similarities_char {g : AdjList} (t : String) (hnd : (keys g).Nodup) :
    similarities g t = (qualifying g t).map (fun c => (c, sharedCount g t c)) :=
  filterMap_simF g t g (fun kv hkv => lookupList_of_nodup hnd hkv)

/-! ## Claim C3: recommendation contract -/

/-- **C3.** On a mapping with unique keys (every Python dict) containing
`title`, `recommend_articles` returns candidates whose score is exactly the
shared-link set-intersection count against `title`, excludes zero-score
candidates, sorts by score descending, returns at most `topN`, and returns
all qualifying candidates when fewer than `topN` qualify;
`noRecommendations` is produced exactly when no candidate qualifies. -/
theorem recommend_articles_spec (g : AdjList) (t : String) (n : Nat)
    (hnd : (keys g).Nodup) (ht : t ∈ keys g) :
    (∀ l, recommend_articles g t n = RecResult.recommendations l →
      (∀ x ∈ l, x.1 ∈ keys g ∧ x.1 ≠ t ∧ x.2 = sharedCount g t x.1 ∧ 0 < x.2)
      ∧ l.Pairwise (fun a b => b.2 ≤ a.2)
      ∧ l.length ≤ n
      ∧ ((qualifying g t).length ≤ n →
          ∀ c ∈ qualifying g t, (c, sharedCount g t c) ∈ l))
    ∧ (recommend_articles g t n = RecResult.noRecommendations ↔
        qualifying g t = []) := by
  have hchar := similarities_char t hnd
  constructor
  · intro l hl
    unfold recommend_articles at hl
    rw [if_pos ht] at hl
    by_cases hsim : similarities g t = []
    · rw [if_pos hsim] at hl
      exact absurd hl (by simp)
    · rw [if_neg hsim] at hl
      simp only [RecResult.recommendations.injEq] at hl
      subst hl
      refine ⟨?_, ?_, ?_, ?_⟩
      · intro x hx
        have hx1 : x ∈ sortDesc (similarities g t) := List.mem_of_mem_take hx
        have hx2 : x ∈ similarities g t := (sortDesc_perm _).mem_iff.mp hx1
        rw [hchar] at hx2
        obtain ⟨c, hc, hcx⟩ := List.mem_map.mp hx2
        obtain ⟨hck, hcp⟩ := List.mem_filter.mp hc
        obtain ⟨hct, hcs⟩ := of_decide_eq_true hcp
        subst hcx
        exact ⟨hck, hct, rfl, hcs⟩
      · exact List.Pairwise.sublist (List.take_sublist n _) (sortDesc_sorted _)
      · exact List.length_take_le n _
      · intro hlen c hc
        have hslen : (sortDesc (similarities g t)).length = (qualifying g t).length := by
          rw [(sortDesc_perm _).length_eq, hchar, List.length_map]
        have htake : (sortDesc (similarities g t)).take n = sortDesc (similarities g t) :=
          List.take_of_length_le (by omega)
        rw [htake]
        refine (sortDesc_perm _).mem_iff.mpr ?_
        rw [hchar]
        exact List.mem_map.mpr ⟨c, hc, rfl⟩
  · unfold recommend_articles
    rw [if_pos ht]
    by_cases hsim : similarities g t = []
    · rw [if_pos hsim]
      have : qualifying g t = [] := by
        rw [hchar] at hsim
        exact List.map_eq_nil_iff.mp hsim
      exact iff_of_true rfl this
    · rw [if_neg hsim]
      refine iff_of_false (by simp) ?_
      intro hq
      apply hsim
      rw [hchar, hq]
      rfl

/-- The spec fixture: `A -> {X, Y, Z}`, `B -> {X, Y}`, `C -> {X}`,
`D -> {W}`, with every destination given its (empty) entry. -/
def fixtureG : AdjList :=
  [("A", ["X", "Y", "Z"]), ("B", ["X", "Y"]), ("C", ["X"]), ("D", ["W"]),
   ("X", []), ("Y", []), ("Z", []), ("W", [])]

theorem recommend_articles_spec_witness :
    (keys fixtureG).Nodup ∧ "A" ∈ keys fixtureG
    ∧ recommend_articles fixtureG "A" 2
        = RecResult.recommendations [("B", 2), ("C", 1)]
    ∧ ([("B", 2), ("C", 1)] : List (String × Nat)).length ≤ 2
    ∧ ([("B", 2), ("C", 1)] : List (String × Nat)).Pairwise (fun a b => b.2 ≤ a.2) := by
  have h := recommend_articles_spec fixtureG "A" 2 (by decide) (by decide)
  have heq : recommend_articles fixtureG "A" 2
      = RecResult.recommendations [("B", 2), ("C", 1)] := by decide
  obtain ⟨-, hsort, hlen, -⟩ := h.1 [("B", 2), ("C", 1)] heq
  exact ⟨by decide, by decide, heq, hlen, hsort⟩

/-! ## Claim C9: termination of the BFS loop and the similarity scan -/

theorem bfsLoop_fuel_mono (g : AdjList) (e : String) :
    ∀ (f1 f2 : Nat) (Q : List Entry) (V : Finset String),
      bfsMeasure g Q V ≤ f1 → f1 ≤ f2 →
      bfsLoop g e f1 Q V = bfsLoop g e f2 Q V := by
  intro f1
  induction f1 with
  | zero =>
    intro f2 Q V hm hf
    have hQ : Q = [] := by
      refine List.length_eq_zero.mp ?_
      unfold bfsMeasure at hm
      omega
    subst hQ
    cases f2 with
    | zero => rfl
    | succ f2 => simp [bfsLoop]
  | succ f1 ih =>
    intro f2 Q V hm hf
    obtain ⟨f2', rfl⟩ : ∃ k, f2 = k + 1 := ⟨f2 - 1, by omega⟩
    match Q with
    | [] => simp [bfsLoop]
    | (cur, pc) :: rest =>
      by_cases hcur : cur = e
      · simp [bfsLoop, hcur]
      · have hmeas := bfs_step_measure g cur pc rest V
        have hstep1 : bfsLoop g e (f1 + 1) ((cur, pc) :: rest) V
            = bfsLoop g e f1 (expand g pc (get_connections g cur) (insert cur V) rest).2
                (expand g pc (get_connections g cur) (insert cur V) rest).1 := by
          simp [bfsLoop, hcur]
        have hstep2 : bfsLoop g e (f2' + 1) ((cur, pc) :: rest) V
            = bfsLoop g e f2' (expand g pc (get_connections g cur) (insert cur V) rest).2
                (expand g pc (get_connections g cur) (insert cur V) rest).1 := by
          simp [bfsLoop, hcur]
        rw [hstep1, hstep2]
        exact ih f2' _ _ (by omega) (by omega)

/-- **C9.** The BFS terminates for every finite graph and input pair: the
fuel `|universeF g| + 1` already bounds the loop (each node is enqueued at
most once because it is marked visited at enqueue time), so any surplus
fuel leaves the result unchanged; and the similarity scan is one bounded
pass over the mapping, yielding at most one candidate per entry. -/
theorem bfs_recommend_terminate :
    ∀ (g : AdjList) (s e t : String) (k : Nat),
      bfsLoop g e ((universeF g).card + 1 + k) [(s, [s])] ∅ = bfs_search g s e
      ∧ (similarities g t).length ≤ g.length := by
  intro g s e t k
  constructor
  · unfold bfs_search
    exact (bfsLoop_fuel_mono g e ((universeF g).card + 1) ((universeF g).card + 1 + k)
      [(s, [s])] ∅ (le_of_eq (bfs_search_measure g s)) (by omega)).symm
  · exact List.length_filterMap_le _ _

/-! ## Claim C10: session pointer update and query frame -/

/-- Method `recommend_articles` as a state transformer: reads only. -/
def WikipediaGraph.recommend_articles (w : WikipediaGraph) (t : String) (topN : Nat) :
    WikipediaGraph × RecResult :=
  (w, Wiki.recommend_articles w.adj_list t topN)

/-- **C10.** `find_shortest_path` unconditionally overwrites the session
pointers `start_page` and `end_page` with its arguments — the update is the
same for every input, including absent or unreachable endpoints whose query
returns `notFound` — while leaving the adjacency mapping untouched; and no
other query operation modifies any field of the object. -/
theorem find_path_session_frame :
    ∀ (w : WikipediaGraph) (s e t : String) (n : Nat),
      ((w.find_shortest_path s e).1.start_page = some s
        ∧ (w.find_shortest_path s e).1.end_page = some e
        ∧ (w.find_shortest_path s e).1.adj_list = w.adj_list)
      ∧ (w.get_connections t).1 = w
      ∧ (w.get_out_degree t).1 = w
      ∧ (w.get_in_degree t).1 = w
      ∧ (w.recommend_articles t n).1 = w :=
  fun _ _ _ _ _ => ⟨⟨rfl, rfl, rfl⟩, rfl, rfl, rfl, rfl⟩

end Wiki
